import Mathlib

/-!
Verification of the chunk-and-embed pipeline of
`CH3-01-Creating_EmbeddedChunks.py` (Databricks_ML_Action).

The notebook's reimplementable logic is shallowly embedded here:

* `get_batches` models the slicing
  `batches = [contents.iloc[i:i + max_batch_size] for i in range(0, len(contents), max_batch_size)]`;
* `get_embedding` models the loop
  `for batch in batches: all_embeddings += get_embeddings(batch.tolist())`,
  with the remote call `deploy_client.predict` abstracted as an oracle
  `embed : List α → List β`;
* `get_embeddingE` is the same loop with a fallible oracle, modelling
  exception propagation out of `get_embeddings`;
* `read_as_chunk` / `extract_and_split` model the chunking UDF, including its
  mutation of the process-wide tokenizer via `set_global_tokenizer`.

Machine integers do not matter here (Python integers are unbounded), so `Nat`
is used for lengths and indices.
-/

namespace EmbeddedChunks

/-- Python's `range(0, stop, step)` for `step > 0`: the list
`[0, step, 2*step, ...]` of all multiples of `step` below `stop`.
Its length is `⌈stop / step⌉ = (stop + step - 1) / step`. -/
def pyRange (stop step : Nat) : List Nat :=
  List.range' 0 ((stop + step - 1) / step) step

/-- The batch slicing from `get_embedding`:
`[contents.iloc[i:i + max_batch_size] for i in range(0, len(contents), max_batch_size)]`.
Python's `contents.iloc[i:i+m]` is `(contents.drop i).take m`. -/
def get_batches {α : Type} (max_batch_size : Nat) (contents : List α) :
    List (List α) :=
  (pyRange contents.length max_batch_size).map
    (fun i => (contents.drop i).take max_batch_size)

/-- The hardcoded `max_batch_size = 150` from the source. -/
def max_batch_size : Nat := 150

/-- The body of `get_embedding`: slice `contents` into batches of at most 150
elements, call the remote embedder once per batch, and accumulate
`all_embeddings += get_embeddings(batch.tolist())`.  The remote call
`get_embeddings` (i.e. `deploy_client.predict` plus the extraction of the
`embedding` field of each response item) is the oracle `embed`. -/
def get_embedding {α β : Type} (embed : List α → List β) (contents : List α) :
    List β :=
  (get_batches max_batch_size contents).foldl (fun acc batch => acc ++ embed batch) []

/-- An observable event of one `get_embedding` run: the issuing of a remote
embedding call for a batch, or the receipt of its response. -/
inductive EmbedEvent (α β : Type) : Type
  | call (batch : List α)
  | resp (vectors : List β)
deriving DecidableEq

/-- `get_embedding` instrumented with the chronological log of remote-call
events: the same `for batch in batches` loop, where each iteration first
issues the call for its batch and then receives the response, before the
next iteration begins. -/
def get_embeddingTr {α β : Type} (embed : List α → List β) (contents : List α) :
    List β × List (EmbedEvent α β) :=
  (get_batches max_batch_size contents).foldl
    (fun st batch =>
      (st.1 ++ embed batch, st.2 ++ [EmbedEvent.call batch, EmbedEvent.resp (embed batch)]))
    ([], [])

/-- The inner loop of `get_embedding` with a fallible remote call, modelling
the note "this will gracefully fail if an exception is thrown during embedding
creation": an exception in `get_embeddings` aborts the loop, propagating the
error, and the log records which batches were submitted (each exactly once,
none after the failure). -/
def runBatchesE {α β ε : Type} (embed : List α → Except ε (List β)) :
    List (List α) → List β → Except ε (List β) × List (List α)
  | [], acc => (Except.ok acc, [])
  | batch :: rest, acc =>
    match embed batch with
    | Except.error e => (Except.error e, [batch])
    | Except.ok vs =>
      let r := runBatchesE embed rest (acc ++ vs)
      (r.1, batch :: r.2)

/-- `get_embedding` with a fallible remote call: result (or the propagated
error), together with the list of batches actually submitted. -/
def get_embeddingE {α β ε : Type} (embed : List α → Except ε (List β))
    (contents : List α) : Except ε (List β) × List (List α) :=
  runBatchesE embed (get_batches max_batch_size contents) []

/-- A concrete fallible oracle for exercising the failure path: it fails
exactly on batches of at most one element and echoes larger batches. -/
def embedFailW (b : List Nat) : Except Nat (List Nat) :=
  if b.length ≤ 1 then Except.error 0 else Except.ok b

/-- The remote calls recorded in an event log, in chronological order. -/
def callsOf {α β : Type} (tr : List (EmbedEvent α β)) : List (List α) :=
  tr.filterMap (fun e =>
    match e with
    | EmbedEvent.call batch => some batch
    | EmbedEvent.resp _ => none)

/-- The process-wide tokenizer: `read_as_chunk` installs the llama tokenizer
via `set_global_tokenizer(AutoTokenizer.from_pretrained(...))`; any other
tokenizer that may have been installed before is modelled by `other`. -/
inductive Tokenizer : Type
  | llama
  | other
deriving DecidableEq

/-- Process-wide mutable state visible to the chunking UDF: the global
tokenizer that `set_global_tokenizer` mutates, and (abstractly) all the rest
of the process state, which the chunking code never touches. -/
structure ProcState : Type where
  tokenizer : Tokenizer
  rest : Nat
deriving DecidableEq

/-- `set_global_tokenizer` from `llama_index`: overwrite the process-wide
tokenizer. -/
def set_global_tokenizer (t : Tokenizer) (s : ProcState) : ProcState :=
  { s with tokenizer := t }

/-- The inner closure of `read_as_chunk`:
`txt = extract_doc_text(b); nodes = splitter.get_nodes_from_documents([Document(text=txt)]); [n.text for n in nodes]`.
`extract_doc_text` (from `mlia_utils.rag_funcs`) and the configured
`SentenceSplitter` are external oracles; the splitter reads the tokenizer
that is globally installed at call time, so it takes it as an argument. -/
def extract_and_split {γ τ σ : Type} (extract_doc_text : γ → τ)
    (split : Tokenizer → τ → List σ) (tok : Tokenizer) (b : γ) : List σ :=
  split tok (extract_doc_text b)

/-- The body of the `read_as_chunk` pandas UDF on one series of documents:
first `set_global_tokenizer(AutoTokenizer.from_pretrained("hf-internal-testing/llama-tokenizer"))`
mutates the process-wide tokenizer, then every element of the series is
mapped through `extract_and_split`, which chunks under the tokenizer just
installed.  Returns the per-document chunk lists and the final process
state. -/
def read_as_chunk {γ τ σ : Type} (extract_doc_text : γ → τ)
    (split : Tokenizer → τ → List σ) (input : List γ) (s : ProcState) :
    List (List σ) × ProcState :=
  let s1 := set_global_tokenizer Tokenizer.llama s
  (input.map (extract_and_split extract_doc_text split s1.tokenizer), s1)

/-- Modelled from the spec: the `SentenceSplitter` of `llama_index` is an
external library whose code is not in this repository; the source only
configures it with `chunk_size=500, chunk_overlap=50`.  Per the spec's
Chunker contract ("produce an ordered, finite ... sequence of text chunks
covering the input text such that consecutive chunks share `overlap` tokens
of context and no chunk exceeds `chunk_size` tokens") and its scenario
("text of exactly 1000 tokens, chunk_size=500, overlap=50 → expect 3 chunks
(approx positions [0,500), [450,950), [900,1000))"), the splitter is a
sliding window over the token sequence: windows of `chunk_size` tokens whose
starts advance by `chunk_size - chunk_overlap`. -/
def splitTokens {τ : Type} (chunk_size chunk_overlap : Nat) (T : List τ) :
    List (List τ) :=
  (pyRange T.length (chunk_size - chunk_overlap)).map
    (fun i => (T.drop i).take chunk_size)

end EmbeddedChunks

namespace EmbeddedChunks

/-! ### Structural lemmas about the batch slicing -/

theorem pyRange_zero (step : Nat) : pyRange 0 step = [] := by
  have h : (0 + step - 1) / step = 0 := by
    rcases Nat.eq_zero_or_pos step with h | h
    · simp [h]
    · apply Nat.div_eq_of_lt; omega
  unfold pyRange
  rw [h, List.range'_zero]

theorem pyRange_pos (stop step : Nat) (hstep : 0 < step) (hstop : 0 < stop) :
    pyRange stop step = 0 :: (pyRange (stop - step) step).map (step + ·) := by
  unfold pyRange
  have hlen : (stop + step - 1) / step = (stop - step + step - 1) / step + 1 := by
    rcases Nat.lt_or_ge stop step with h | h
    · have h2 : stop - step = 0 := by omega
      have e1 : stop + step - 1 = (stop - 1) + step := by omega
      have e2 : (stop - 1) / step = 0 := Nat.div_eq_of_lt (by omega)
      have e3 : (0 + step - 1) / step = 0 := Nat.div_eq_of_lt (by omega)
      rw [e1, Nat.add_div_right _ hstep, e2, h2, e3]
    · have h3 : stop + step - 1 = (stop - step + step - 1) + step := by omega
      rw [h3, Nat.add_div_right _ hstep]
  rw [hlen, List.range'_succ, List.map_add_range', Nat.add_zero, Nat.zero_add]

theorem get_batches_nil {α : Type} (m : Nat) : get_batches m ([] : List α) = [] := by
  simp [get_batches, pyRange_zero]

theorem get_batches_cons {α : Type} (m : Nat) (hm : 0 < m) (l : List α)
    (hl : l ≠ []) :
    get_batches m l = l.take m :: get_batches m (l.drop m) := by
  have hlen : 0 < l.length := List.length_pos.mpr hl
  unfold get_batches
  rw [pyRange_pos l.length m hm hlen, List.map_cons, List.map_map]
  simp only [List.drop_zero, List.length_drop]
  congr 1
  apply List.map_congr_left
  intro a _
  simp [Function.comp, List.drop_drop, Nat.add_comm]

/-- Induction principle matching the batch slicing: empty list, or a head
slice of `m` elements followed by the rest. -/
theorem get_batches_induction {α : Type} (m : Nat) (hm : 0 < m)
    (P : List α → Prop) (hnil : P [])
    (hcons : ∀ l : List α, l ≠ [] → P (l.drop m) → P l) :
    ∀ l : List α, P l := by
  have key : ∀ n (l : List α), l.length ≤ n → P l := by
    intro n
    induction n with
    | zero =>
      intro l hl
      have : l = [] := List.eq_nil_of_length_eq_zero (by omega)
      rw [this]; exact hnil
    | succ n ih =>
      intro l hl
      rcases eq_or_ne l [] with rfl | hne
      · exact hnil
      · refine hcons l hne (ih _ ?_)
        have hpos : 0 < l.length := List.length_pos.mpr hne
        rw [List.length_drop]; omega
  intro l; exact key l.length l (Nat.le_refl _)

theorem get_batches_flatten {α : Type} (m : Nat) (hm : 0 < m) (l : List α) :
    (get_batches m l).flatten = l := by
  induction l using get_batches_induction m hm with
  | hnil => simp [get_batches_nil]
  | hcons l hl ih =>
    rw [get_batches_cons m hm l hl]
    simp [ih]

theorem get_batches_length {α : Type} (m : Nat) (l : List α) :
    (get_batches m l).length = (l.length + m - 1) / m := by
  simp [get_batches, pyRange]

theorem get_batches_le {α : Type} (m : Nat) (l : List α) :
    ∀ b ∈ get_batches m l, b.length ≤ m := by
  intro b hb
  simp only [get_batches, List.mem_map] at hb
  obtain ⟨i, _, rfl⟩ := hb
  simp [List.length_take]

theorem get_batches_getElem? {α : Type} (m : Nat) (l : List α) (i : Nat)
    (h : i < (l.length + m - 1) / m) :
    (get_batches m l)[i]? = some ((l.drop (m * i)).take m) := by
  unfold get_batches pyRange
  rw [List.getElem?_map, List.getElem?_range' 0 m h]
  simp

theorem get_batches_full {α : Type} (m : Nat) (hm : 0 < m) (l : List α)
    (i : Nat) (h : i + 1 < (get_batches m l).length) :
    ∃ b, (get_batches m l)[i]? = some b ∧ b.length = m := by
  rw [get_batches_length] at h
  refine ⟨_, get_batches_getElem? m l i (by omega), ?_⟩
  have h2 : i + 2 ≤ (l.length + m - 1) / m := by omega
  have h3 : (i + 2) * m ≤ l.length + m - 1 :=
    (Nat.le_div_iff_mul_le hm).mp h2
  have h4 : (i + 2) * m = m * i + 2 * m := by ring
  simp only [List.length_take, List.length_drop]
  omega

theorem get_batches_ne_nil {α : Type} (m : Nat) (hm : 0 < m) (l : List α) :
    ∀ b ∈ get_batches m l, b ≠ [] := by
  induction l using get_batches_induction m hm with
  | hnil => simp [get_batches_nil]
  | hcons l hl ih =>
    rw [get_batches_cons m hm l hl]
    intro b hb
    rcases List.mem_cons.mp hb with rfl | hb
    · simp only [ne_eq, List.take_eq_nil_iff]
      push_neg
      exact ⟨by omega, hl⟩
    · exact ih b hb

/-! ### The embedding loop and its event trace -/

theorem foldl_append_embed {α β : Type} (embed : List α → List β) :
    ∀ (bs : List (List α)) (acc : List β),
      bs.foldl (fun a b => a ++ embed b) acc = acc ++ (bs.map embed).flatten
  | [], acc => by simp
  | b :: bs, acc => by
    simp only [List.foldl_cons, List.map_cons, List.flatten_cons]
    rw [foldl_append_embed embed bs (acc ++ embed b), List.append_assoc]

theorem get_embedding_eq_flatten {α β : Type} (embed : List α → List β)
    (l : List α) :
    get_embedding embed l = ((get_batches max_batch_size l).map embed).flatten := by
  unfold get_embedding
  rw [foldl_append_embed]
  simp

theorem foldl_trace_embed {α β : Type} (embed : List α → List β) :
    ∀ (bs : List (List α)) (acc : List β) (tr : List (EmbedEvent α β)),
      bs.foldl
        (fun st batch =>
          (st.1 ++ embed batch,
           st.2 ++ [EmbedEvent.call batch, EmbedEvent.resp (embed batch)]))
        (acc, tr)
      = (acc ++ (bs.map embed).flatten,
         tr ++ (bs.map
            (fun b => [EmbedEvent.call b, EmbedEvent.resp (embed b)])).flatten)
  | [], acc, tr => by simp
  | b :: bs, acc, tr => by
    simp only [List.foldl_cons, List.map_cons, List.flatten_cons]
    rw [foldl_trace_embed embed bs (acc ++ embed b) _, List.append_assoc,
      List.append_assoc]

theorem get_embeddingTr_eq {α β : Type} (embed : List α → List β) (l : List α) :
    get_embeddingTr embed l
      = (get_embedding embed l,
         ((get_batches max_batch_size l).map
            (fun b => [EmbedEvent.call b, EmbedEvent.resp (embed b)])).flatten) := by
  unfold get_embeddingTr
  rw [foldl_trace_embed, get_embedding_eq_flatten]
  simp

theorem callsOf_pairs {α β : Type} (embed : List α → List β) :
    ∀ bs : List (List α),
      callsOf ((bs.map
          (fun b => [EmbedEvent.call b, EmbedEvent.resp (embed b)])).flatten)
        = bs
  | [] => rfl
  | b :: bs => by
    simp only [List.map_cons, List.flatten_cons, callsOf, List.filterMap_append]
    have ih := callsOf_pairs embed bs
    simp only [callsOf] at ih
    rw [ih]
    rfl

theorem pairs_getElem {α β : Type} (embed : List α → List β) :
    ∀ (bs : List (List α)) (i : Nat),
      ((bs.map
          (fun b => [EmbedEvent.call b, EmbedEvent.resp (embed b)])).flatten)[2 * i]?
        = bs[i]?.map EmbedEvent.call ∧
      ((bs.map
          (fun b => [EmbedEvent.call b, EmbedEvent.resp (embed b)])).flatten)[2 * i + 1]?
        = bs[i]?.map (fun b => EmbedEvent.resp (embed b))
  | [], i => by simp
  | b :: bs, 0 => by simp
  | b :: bs, i + 1 => by
    have h2 : 2 * (i + 1) = 2 * i + 1 + 1 := by ring
    simp only [List.map_cons, List.flatten_cons, h2, List.cons_append,
      List.getElem?_cons_succ, List.nil_append]
    exact pairs_getElem embed bs i

theorem pairs_length {α β : Type} (embed : List α → List β)
    (bs : List (List α)) :
    ((bs.map
        (fun b => [EmbedEvent.call b, EmbedEvent.resp (embed b)])).flatten).length
      = 2 * bs.length := by
  induction bs with
  | nil => rfl
  | cons b bs ih =>
    simp only [List.map_cons, List.flatten_cons, List.length_append, ih,
      List.length_cons]
    simp
    omega

/-! ### The fallible embedding loop -/

theorem runBatchesE_error {α β ε : Type} (embed : List α → Except ε (List β)) :
    ∀ (bs : List (List α)) (acc : List β) (k : Nat) (bk : List α) (e : ε),
      bs[k]? = some bk →
      (∀ j b, j < k → bs[j]? = some b → ∃ vs, embed b = Except.ok vs) →
      embed bk = Except.error e →
      runBatchesE embed bs acc = (Except.error e, bs.take (k + 1))
  | [], acc, k, bk, e, hk, _, _ => by simp at hk
  | b :: bs, acc, 0, bk, e, hk, _, hfail => by
    simp only [List.getElem?_cons_zero, Option.some_inj] at hk
    subst hk
    simp [runBatchesE, hfail]
  | b :: bs, acc, k + 1, bk, e, hk, hok, hfail => by
    simp only [List.getElem?_cons_succ] at hk
    obtain ⟨vs, hvs⟩ := hok 0 b (by omega) (by simp)
    have ih := runBatchesE_error embed bs (acc ++ vs) k bk e hk
      (fun j bj hj hbj => hok (j + 1) bj (by omega) (by simpa using hbj)) hfail
    simp [runBatchesE, hvs, ih]

/-! ### The modelled token splitter -/

theorem splitTokens_length {τ : Type} (T : List τ) :
    (splitTokens 500 50 T).length = (T.length + 449) / 450 := by
  simp [splitTokens, pyRange]

theorem splitTokens_getElem? {τ : Type} (T : List τ) (i : Nat)
    (h : i < (T.length + 449) / 450) :
    (splitTokens 500 50 T)[i]? = some ((T.drop (450 * i)).take 500) := by
  unfold splitTokens pyRange
  simp only [show (500 : Nat) - 50 = 450 from rfl,
    show ∀ n : Nat, n + 450 - 1 = n + 449 from fun n => rfl]
  rw [List.getElem?_map, List.getElem?_range' 0 450 h]
  simp

/-! ### The claims -/

/-- Claim C1: for every input sequence of text chunks of length L, assuming
each remote embedding call returns exactly one vector per submitted string in
submission order (oracle hypothesis `h`: the response to a batch is the
per-string vectors of that batch, in batch order), `get_embedding` returns a
sequence of exactly L vectors in which the vector at position i is the one
produced for the chunk at position i, across batch boundaries. -/
theorem C1_get_embedding_positional {α β : Type} (embed : List α → List β)
    (f : α → β) (h : ∀ b, embed b = b.map f) (contents : List α) :
    (get_embedding embed contents).length = contents.length ∧
    ∀ i : Nat, (get_embedding embed contents)[i]? = contents[i]?.map f := by
  have key : get_embedding embed contents = contents.map f := by
    rw [get_embedding_eq_flatten]
    calc ((get_batches max_batch_size contents).map embed).flatten
        = ((get_batches max_batch_size contents).map
            (fun b => b.map f)).flatten := by
          rw [List.map_congr_left (fun b _ => h b)]
      _ = ((get_batches max_batch_size contents).flatten).map f :=
          (List.map_flatten ..).symm
      _ = contents.map f := by
          rw [get_batches_flatten max_batch_size (by decide)]
  rw [key]
  exact ⟨List.length_map .., fun i => List.getElem?_map ..⟩

/-- Witness for C1 at a concrete input: three chunks, the oracle doubling
each one. -/
theorem C1_witness :
    (∀ b : List Nat, (fun b : List Nat => b.map (fun x => x * 2)) b
        = b.map (fun x => x * 2)) ∧
    ((get_embedding (fun b : List Nat => b.map (fun x => x * 2))
        [1, 2, 3]).length = ([1, 2, 3] : List Nat).length ∧
      ∀ i : Nat,
        (get_embedding (fun b : List Nat => b.map (fun x => x * 2))
          [1, 2, 3])[i]? = ([1, 2, 3] : List Nat)[i]?.map (fun x => x * 2)) :=
  ⟨fun _ => rfl,
    C1_get_embedding_positional (fun b : List Nat => b.map (fun x => x * 2))
      (fun x => x * 2) (fun _ => rfl) [1, 2, 3]⟩

/-- Claim C2: for every input sequence of length L and the source's
`max_batch_size = 150`, `get_embedding` partitions the sequence into exactly
`⌈L/150⌉` contiguous batches, each of at most 150 elements, only the last
possibly smaller, issues exactly one remote call per batch in batch order
(the chronological call log is exactly the batch list), and concatenating
the batches gives back the input: no reordering, no deduplication. -/
theorem C2_batching_policy {α β : Type} (embed : List α → List β)
    (l : List α) :
    (get_batches max_batch_size l).length = (l.length + 150 - 1) / 150 ∧
    (∀ b ∈ get_batches max_batch_size l, b.length ≤ 150) ∧
    (∀ i : Nat, i + 1 < (get_batches max_batch_size l).length →
        ∃ b, (get_batches max_batch_size l)[i]? = some b ∧ b.length = 150) ∧
    (get_batches max_batch_size l).flatten = l ∧
    callsOf (get_embeddingTr embed l).2 = get_batches max_batch_size l := by
  refine ⟨get_batches_length max_batch_size l, get_batches_le max_batch_size l,
    fun i h => get_batches_full max_batch_size (by decide) l i h,
    get_batches_flatten max_batch_size (by decide) l, ?_⟩
  rw [get_embeddingTr_eq]
  exact callsOf_pairs embed _

/-- Claim C8: for the empty input, `get_embedding` issues zero remote calls
(the event trace is empty) and returns the empty sequence; in the fallible
model the run ends without error. -/
theorem C8_empty_input {α β ε : Type} (embed : List α → List β)
    (embedE : List α → Except ε (List β)) :
    get_embedding embed ([] : List α) = [] ∧
    (get_embeddingTr embed ([] : List α)).2 = [] ∧
    (get_embeddingE embedE ([] : List α)).1 = Except.ok [] ∧
    (get_embeddingE embedE ([] : List α)).2 = [] := by
  refine ⟨?_, ?_, ?_, ?_⟩
  · rw [get_embedding_eq_flatten, get_batches_nil]
    rfl
  · rw [get_embeddingTr_eq, get_batches_nil]
    rfl
  · unfold get_embeddingE
    rw [get_batches_nil]
    rfl
  · unfold get_embeddingE
    rw [get_batches_nil]
    rfl

/-- Claim C9: for a non-empty input, every batch `get_embedding` forms is
non-empty (no remote call carries an empty list), and every batch except
possibly the last has exactly 150 elements. -/
theorem C9_nonempty_batches {α : Type} (l : List α) (_hl : l ≠ []) :
    (∀ b ∈ get_batches max_batch_size l, b ≠ []) ∧
    (∀ i : Nat, i + 1 < (get_batches max_batch_size l).length →
        ∃ b, (get_batches max_batch_size l)[i]? = some b ∧ b.length = 150) :=
  ⟨get_batches_ne_nil max_batch_size (by decide) l,
    fun i h => get_batches_full max_batch_size (by decide) l i h⟩

/-- Witness for C9 at a concrete non-empty input. -/
theorem C9_witness :
    (([0, 1, 2] : List Nat) ≠ []) ∧
    ((∀ b ∈ get_batches max_batch_size ([0, 1, 2] : List Nat), b ≠ []) ∧
      (∀ i : Nat,
          i + 1 < (get_batches max_batch_size ([0, 1, 2] : List Nat)).length →
          ∃ b, (get_batches max_batch_size ([0, 1, 2] : List Nat))[i]? = some b ∧
            b.length = 150)) :=
  ⟨by decide, C9_nonempty_batches [0, 1, 2] (by decide)⟩

/-- Claim C3: if the remote call fails on a batch — the first failure being at
batch k, every earlier batch succeeding — the entire run fails: the loop
returns that error (no output sequence is produced), and the batches actually
submitted are exactly the first k+1, each once, so there is no retry and
nothing after the failure is attempted. -/
theorem C3_error_aborts {α β ε : Type} (embed : List α → Except ε (List β))
    (contents : List α) (k : Nat) (bk : List α) (e : ε)
    (hk : (get_batches max_batch_size contents)[k]? = some bk)
    (hok : ∀ j b, j < k → (get_batches max_batch_size contents)[j]? = some b →
        ∃ vs, embed b = Except.ok vs)
    (hfail : embed bk = Except.error e) :
    (get_embeddingE embed contents).1 = Except.error e ∧
    (get_embeddingE embed contents).2
      = (get_batches max_batch_size contents).take (k + 1) := by
  unfold get_embeddingE
  rw [runBatchesE_error embed _ [] k bk e hk hok hfail]
  exact ⟨rfl, rfl⟩

set_option maxRecDepth 16000 in
/-- Witness for C3: 151 chunks make two batches; the oracle fails on the
second (singleton) batch, so the run returns the error after submitting
exactly the two batches. -/
theorem C3_witness :
    ((get_batches max_batch_size (List.range 151))[1]? = some [150]) ∧
    (embedFailW [150] = Except.error 0) ∧
    ((get_embeddingE embedFailW (List.range 151)).1 = Except.error 0 ∧
      (get_embeddingE embedFailW (List.range 151)).2
        = (get_batches max_batch_size (List.range 151)).take 2) := by
  have hk : (get_batches max_batch_size (List.range 151))[1]? = some [150] := by
    decide
  have hok : ∀ j b, j < 1 →
      (get_batches max_batch_size (List.range 151))[j]? = some b →
      ∃ vs, embedFailW b = Except.ok vs := by
    intro j b hj hb
    have hj0 : j = 0 := by omega
    subst hj0
    have hb0 : (get_batches max_batch_size (List.range 151))[0]?
        = some ((List.range 151).take 150) := by decide
    rw [hb0] at hb
    have hbe : b = (List.range 151).take 150 := (Option.some_inj.mp hb).symm
    subst hbe
    exact ⟨(List.range 151).take 150, rfl⟩
  exact ⟨hk, rfl,
    C3_error_aborts embedFailW (List.range 151) 1 [150] 0 hk hok rfl⟩

/-- Claim C4: for an input of exactly 151 chunks, `get_embedding` issues
exactly 2 remote calls, the first with the batch of the first 150 chunks and
the second with the batch of the remaining 1 chunk, in that order. -/
theorem C4_151_chunks {α β : Type} (embed : List α → List β)
    (contents : List α) (h : contents.length = 151) :
    callsOf (get_embeddingTr embed contents).2
      = [contents.take 150, contents.drop 150] ∧
    (contents.take 150).length = 150 ∧
    (contents.drop 150).length = 1 := by
  have h1 : contents ≠ [] := by
    intro hc
    rw [hc] at h
    simp at h
  have h2 : contents.drop 150 ≠ [] := by
    intro hc
    have hc2 := congrArg List.length hc
    rw [List.length_drop, h] at hc2
    simp at hc2
  have hb : get_batches max_batch_size contents
      = [contents.take 150, contents.drop 150] := by
    simp only [max_batch_size]
    rw [get_batches_cons 150 (by decide) contents h1]
    rw [get_batches_cons 150 (by decide) _ h2]
    have h3 : (contents.drop 150).take 150 = contents.drop 150 := by
      apply List.take_of_length_le
      rw [List.length_drop, h]
      omega
    have h4 : (contents.drop 150).drop 150 = [] := by
      apply List.drop_eq_nil_of_le
      rw [List.length_drop, h]
      omega
    rw [h3, h4, get_batches_nil]
  refine ⟨?_, ?_, ?_⟩
  · rw [get_embeddingTr_eq, callsOf_pairs embed, hb]
  · rw [List.length_take, h]
    omega
  · rw [List.length_drop, h]

/-- Witness for C4 at the concrete 151-chunk input. -/
theorem C4_witness :
    ((List.range 151).length = 151) ∧
    (callsOf (get_embeddingTr (fun b : List Nat => b) (List.range 151)).2
        = [(List.range 151).take 150, (List.range 151).drop 150] ∧
      ((List.range 151).take 150).length = 150 ∧
      ((List.range 151).drop 150).length = 1) :=
  ⟨by simp, C4_151_chunks (fun b : List Nat => b) (List.range 151) (by simp)⟩

/-- Claim C7: remote calls are strictly sequential: the chronological event
trace of one run has exactly two events per batch (one call, one response),
and for every pair of consecutive batches i and i+1 the response to batch i
sits at trace position 2i+1, strictly before the call for batch i+1 at trace
position 2i+2 — so the call for batch i+1 is issued only after the response
for batch i is received, and no two remote calls overlap. -/
theorem C7_sequential_calls {α β : Type} (embed : List α → List β)
    (contents : List α) (i : Nat)
    (h : i + 1 < (get_batches max_batch_size contents).length) :
    ((get_embeddingTr embed contents).2).length
      = 2 * (get_batches max_batch_size contents).length ∧
    (∃ bi, (get_batches max_batch_size contents)[i]? = some bi ∧
      ((get_embeddingTr embed contents).2)[2 * i + 1]?
        = some (EmbedEvent.resp (embed bi))) ∧
    (∃ bj, (get_batches max_batch_size contents)[i + 1]? = some bj ∧
      ((get_embeddingTr embed contents).2)[2 * i + 2]?
        = some (EmbedEvent.call bj)) := by
  rw [get_embeddingTr_eq]
  have hi : i < (get_batches max_batch_size contents).length := by omega
  refine ⟨pairs_length embed _, ?_, ?_⟩
  · refine ⟨(get_batches max_batch_size contents)[i], List.getElem?_eq_getElem hi, ?_⟩
    rw [(pairs_getElem embed _ i).2, List.getElem?_eq_getElem hi]
    rfl
  · have h2 : 2 * i + 2 = 2 * (i + 1) := by ring
    refine ⟨(get_batches max_batch_size contents)[i + 1],
      List.getElem?_eq_getElem h, ?_⟩
    rw [h2, (pairs_getElem embed _ (i + 1)).1, List.getElem?_eq_getElem h]
    rfl

set_option maxRecDepth 16000 in
/-- Witness for C7: 151 chunks make two batches; the response to batch 0
precedes the call for batch 1 in the trace. -/
theorem C7_witness :
    (0 + 1 < (get_batches max_batch_size (List.range 151)).length) ∧
    (((get_embeddingTr (fun b : List Nat => b) (List.range 151)).2).length
        = 2 * (get_batches max_batch_size (List.range 151)).length ∧
      (∃ bi, (get_batches max_batch_size (List.range 151))[0]? = some bi ∧
        ((get_embeddingTr (fun b : List Nat => b) (List.range 151)).2)[2 * 0 + 1]?
          = some (EmbedEvent.resp ((fun b : List Nat => b) bi))) ∧
      (∃ bj, (get_batches max_batch_size (List.range 151))[0 + 1]? = some bj ∧
        ((get_embeddingTr (fun b : List Nat => b) (List.range 151)).2)[2 * 0 + 2]?
          = some (EmbedEvent.call bj))) :=
  ⟨by decide,
    C7_sequential_calls (fun b : List Nat => b) (List.range 151) 0 (by decide)⟩

/-- Counterexample to claim C5 as stated: a chunking invocation is not free
of side effects on state outside its own result — `read_as_chunk` installs
the llama tokenizer process-wide, so a process that had another tokenizer
installed has its global state changed by the call. -/
theorem C5_counterexample :
    ¬ ((read_as_chunk (fun b : Nat => b) (fun _ t => [t]) [0]
          ⟨Tokenizer.other, 0⟩).2 = ⟨Tokenizer.other, 0⟩) := by
  decide

/-- Claim C5 (amended): the chunk lists produced are a pure function of the
input documents, the extractor/splitter and the installed tokenizer, and the
only process-wide state a `read_as_chunk` invocation mutates is the global
tokenizer, which it sets to the llama tokenizer; all other process state is
unchanged. -/
theorem C5_amended {γ τ σ : Type} (extract : γ → τ)
    (split : Tokenizer → τ → List σ) (input : List γ) (s : ProcState) :
    (read_as_chunk extract split input s).1
      = input.map (fun b => split Tokenizer.llama (extract b)) ∧
    (read_as_chunk extract split input s).2.tokenizer = Tokenizer.llama ∧
    (read_as_chunk extract split input s).2.rest = s.rest :=
  ⟨rfl, rfl, rfl⟩

/-- Claim C10: within one `read_as_chunk` invocation the chunk list produced
for a document depends only on that document's bytes: two input collections
holding the same document bytes at positions i and j, whatever else they
contain and whatever the prior process states, get identical chunks at those
positions — each element is extracted and split independently under the
freshly installed tokenizer. -/
theorem C10_per_document {γ τ σ : Type} (extract : γ → τ)
    (split : Tokenizer → τ → List σ) (xs ys : List γ) (s t : ProcState)
    (i j : Nat) (h : xs[i]? = ys[j]?) :
    (read_as_chunk extract split xs s).1[i]?
      = (read_as_chunk extract split ys t).1[j]? := by
  simp only [read_as_chunk, set_global_tokenizer, List.getElem?_map]
  rw [h]

/-- Witness for C10 at concrete inputs: the document `3` appears at position
0 of one collection and position 1 of another, alongside different
neighbours and from different prior states, and gets the same chunks. -/
theorem C10_witness :
    (([3] : List Nat)[0]? = ([9, 3] : List Nat)[1]?) ∧
    (read_as_chunk (fun b : Nat => b) (fun _ t => [t]) [3]
        ⟨Tokenizer.other, 0⟩).1[0]?
      = (read_as_chunk (fun b : Nat => b) (fun _ t => [t]) [9, 3]
          ⟨Tokenizer.llama, 5⟩).1[1]? :=
  ⟨rfl,
    C10_per_document (fun b : Nat => b) (fun _ t => [t]) [3] [9, 3]
      ⟨Tokenizer.other, 0⟩ ⟨Tokenizer.llama, 5⟩ 0 1 rfl⟩

/-- Claim C6 (against the spec-modelled splitter): with `chunk_size = 500`
and `chunk_overlap = 50`, every produced chunk has at most 500 tokens, and
for consecutive chunks the 50-token tail of the earlier chunk past position
450 is exactly the prefix of the later chunk; the shared span has exactly 50
tokens whenever the boundary is not the final one (at the final boundary the
text may be exhausted and the span shorter). -/
theorem C6_chunk_bounds {τ : Type} (T : List τ) :
    (∀ c ∈ splitTokens 500 50 T, c.length ≤ 500) ∧
    (∀ i : Nat, ∀ ci cj : List τ,
      (splitTokens 500 50 T)[i]? = some ci →
      (splitTokens 500 50 T)[i + 1]? = some cj →
      cj.take (ci.drop 450).length = ci.drop 450 ∧
      (i + 2 < (splitTokens 500 50 T).length → (ci.drop 450).length = 50)) := by
  constructor
  · intro c hc
    simp only [splitTokens, List.mem_map] at hc
    obtain ⟨a, _, rfl⟩ := hc
    simp [List.length_take]
  · intro i ci cj hci hcj
    have hn1 : i + 1 < (splitTokens 500 50 T).length := by
      by_contra hc
      rw [List.getElem?_eq_none (by omega)] at hcj
      exact Option.noConfusion hcj
    rw [splitTokens_length] at hn1
    rw [splitTokens_getElem? T i (by omega)] at hci
    rw [splitTokens_getElem? T (i + 1) (by omega)] at hcj
    have hci2 : ci = (T.drop (450 * i)).take 500 := (Option.some_inj.mp hci).symm
    have hcj2 : cj = (T.drop (450 * (i + 1))).take 500 :=
      (Option.some_inj.mp hcj).symm
    subst hci2 hcj2
    have hdt : ((T.drop (450 * i)).take 500).drop 450
        = (T.drop (450 * (i + 1))).take 50 := by
      rw [List.drop_take, List.drop_drop]
      have e1 : 450 * i + 450 = 450 * (i + 1) := by ring
      rw [e1, show (500 : Nat) - 450 = 50 from rfl]
    rw [hdt]
    constructor
    · rcases Nat.lt_or_ge (T.drop (450 * (i + 1))).length 50 with hlt | hge
      · have e2 : (T.drop (450 * (i + 1))).take 50 = T.drop (450 * (i + 1)) :=
          List.take_of_length_le (by omega)
        rw [e2, List.take_take, List.length_drop]
        have e3 : min (T.length - 450 * (i + 1)) 500 = T.length - 450 * (i + 1) := by
          rw [List.length_drop] at hlt
          omega
        rw [e3, ← List.length_drop (450 * (i + 1)) T]
        exact List.take_length _
      · have e2 : ((T.drop (450 * (i + 1))).take 50).length = 50 := by
          rw [List.length_take]
          omega
        rw [e2, List.take_take]
        rfl
    · intro hn2
      rw [splitTokens_length] at hn2
      have h3 : i + 3 ≤ (T.length + 449) / 450 := by omega
      have h4 : (i + 3) * 450 ≤ T.length + 449 :=
        (Nat.le_div_iff_mul_le (by omega)).mp h3
      have h5 : (i + 3) * 450 = 450 * i + 1350 := by ring
      have h6 : 450 * (i + 1) = 450 * i + 450 := by ring
      rw [List.length_take, List.length_drop, h6]
      omega

end EmbeddedChunks
